import Mathlib

/-!
Verification of the ASCII-Converter image-to-glyph conversion pipeline
(`src/src/App.jsx`).

The JavaScript source is shallowly embedded: floating-point numbers are
modelled as rationals (`ℚ`), typed arrays as `Array ℚ` / `Array ℕ` with
JavaScript's silently-ignored out-of-bounds write modelled by `Array.setD`,
strings of glyphs as `List Char`, and the asynchronous conversion-request
bookkeeping of the React component as an explicit transition system.

The canvas glyph-brightness measurement (`measureCharBrightness`) reads
pixels back from a rendering surface, so it is kept abstract: calibration
is parametrised by an arbitrary measurement function `measure : Char → ℚ`.
Likewise `Math.pow(v, gamma)` for a non-integral exponent is kept abstract
as a parameter `powGamma : ℚ → ℚ`; the code clamps its result into `[0,1]`
before use, which the embedding reproduces.
-/

namespace AsciiConverter

/-- `CHAR_ASPECT` from `App.jsx` line 53: assumed height/width ratio of a
monospaced character cell. -/
def CHAR_ASPECT : ℚ := 2

/-- JavaScript `Math.round`: round half toward positive infinity. -/
def jsRound (q : ℚ) : ℤ := ⌊q + 1/2⌋

/-- `rows = Math.max(1, Math.round((imgH / imgW) * (targetCols / CHAR_ASPECT)))`
(`App.jsx` line 901). -/
def computeRows (imgW imgH targetCols : ℕ) : ℕ :=
  (max 1 (jsRound ((imgH : ℚ) / (imgW : ℚ) * ((targetCols : ℚ) / CHAR_ASPECT)))).toNat

/-- The result record of `quantizeToLevels` (`App.jsx` lines 1177-1208):
`{ index, value }`. -/
structure QuantResult where
  index : ℕ
  value : ℚ
deriving Repr, DecidableEq

/-- The `while (hi - lo > 1)` binary-search loop of `quantizeToLevels`
(`App.jsx` lines 1194-1201), returning the final `(lo, hi)` pair.
`mid = (lo + hi) >> 1`; the branch `value >= levels[mid]` moves `lo` up,
otherwise `hi` moves down. -/
def searchLoop (levels : List ℚ) (value : ℚ) (lo hi : ℕ) : ℕ × ℕ :=
  if 1 < hi - lo then
    let mid := (lo + hi) / 2
    if levels.getD mid 0 ≤ value then searchLoop levels value mid hi
    else searchLoop levels value lo mid
  else (lo, hi)
termination_by hi - lo
decreasing_by all_goals omega

/-- `quantizeToLevels(value, levels)` (`App.jsx` lines 1177-1208): nearest
level lookup with clamping at both extremes and a binary search in between. -/
def quantizeToLevels (value : ℚ) (levels : List ℚ) : QuantResult :=
  let n := levels.length
  if n = 0 then ⟨0, 0⟩
  else if n = 1 then ⟨0, levels.getD 0 0⟩
  else if value ≤ levels.getD 0 0 then ⟨0, levels.getD 0 0⟩
  else
    let lastIndex := n - 1
    if levels.getD lastIndex 0 ≤ value then ⟨lastIndex, levels.getD lastIndex 0⟩
    else
      let p := searchLoop levels value 0 lastIndex
      let lowVal := levels.getD p.1 0
      let highVal := levels.getD p.2 0
      if value - lowVal ≤ highVal - value then ⟨p.1, lowVal⟩ else ⟨p.2, highVal⟩

/-- The binary-search loop narrows `[lo, hi]` to an adjacent pair `(j, j+1)`
that brackets `value`: `levels[j] ≤ value < levels[j+1]`. -/
theorem searchLoop_spec (levels : List ℚ) (value : ℚ) :
    ∀ (n lo hi : ℕ), hi - lo ≤ n → lo < hi →
      levels.getD lo 0 ≤ value → value < levels.getD hi 0 →
      ∃ j, searchLoop levels value lo hi = (j, j + 1) ∧ lo ≤ j ∧ j + 1 ≤ hi ∧
        levels.getD j 0 ≤ value ∧ value < levels.getD (j + 1) 0 := by
  intro n
  induction n with
  | zero => intro lo hi hle hlt _ _; omega
  | succ n ih =>
    intro lo hi hle hlt hlow hhigh
    rw [searchLoop]
    by_cases hgap : 1 < hi - lo
    · rw [if_pos hgap]
      by_cases hmid : levels.getD ((lo + hi) / 2) 0 ≤ value
      · simp only [hmid, if_pos]
        obtain ⟨j, hj⟩ := ih ((lo + hi) / 2) hi (by omega) (by omega) hmid hhigh
        exact ⟨j, hj.1, by omega, hj.2.2⟩
      · simp only [hmid, if_neg, if_false]
        obtain ⟨j, hj⟩ := ih lo ((lo + hi) / 2) (by omega) (by omega) hlow (by linarith [not_le.mp hmid])
        exact ⟨j, hj.1, hj.2.1, by omega, hj.2.2.2⟩
    · rw [if_neg hgap]
      have : hi = lo + 1 := by omega
      exact ⟨lo, by rw [this], le_refl _, by omega, hlow, this ▸ hhigh⟩

/-- `quantizeToLevels` on an empty levels array returns index 0 and value 0. -/
theorem quantize_empty (value : ℚ) : quantizeToLevels value [] = ⟨0, 0⟩ := rfl

/-- On a non-empty levels array, `quantizeToLevels` returns an in-range index
and the value stored at that index. -/
theorem quantize_valid (value : ℚ) (levels : List ℚ) (h : levels ≠ []) :
    (quantizeToLevels value levels).index < levels.length ∧
    (quantizeToLevels value levels).value =
      levels.getD (quantizeToLevels value levels).index 0 := by
  have hlen : 0 < levels.length := List.length_pos.mpr h
  simp only [quantizeToLevels]
  split_ifs with h0 h1 hlow hhigh hc
  · exact absurd hlen (by omega)
  · exact ⟨hlen, rfl⟩
  · exact ⟨hlen, rfl⟩
  · exact ⟨Nat.sub_lt hlen Nat.one_pos, rfl⟩
  · obtain ⟨j, hj, hlo, hhi, _, _⟩ :=
      searchLoop_spec levels value (levels.length - 1) 0 (levels.length - 1)
        (le_refl _) (by omega) (le_of_not_le hlow) (lt_of_not_le hhigh)
    have hjlen : j < levels.length := by omega
    rw [hj]
    exact ⟨hjlen, rfl⟩
  · obtain ⟨j, hj, hlo, hhi, _, _⟩ :=
      searchLoop_spec levels value (levels.length - 1) 0 (levels.length - 1)
        (le_refl _) (by omega) (le_of_not_le hlow) (lt_of_not_le hhigh)
    have hj1len : j + 1 < levels.length := by omega
    rw [hj]
    exact ⟨hj1len, rfl⟩

/-! ## Floyd-Steinberg dithering (`App.jsx` lines 950-981) -/

/-- `clamp01` (`App.jsx` line 951): `(v) => (v < 0 ? 0 : v > 1 ? 1 : v)`. -/
def clamp01 (v : ℚ) : ℚ := if v < 0 then 0 else if 1 < v then 1 else v

/-- The mutable state of the dithering loop: the `brightness` Float32Array
and the `quantized` Uint16Array, both of length `rows * targetCols`. -/
structure DitherState where
  brightness : Array ℚ
  quantized : Array ℕ
deriving Repr, DecidableEq

/-- One iteration of the dithering double loop (`App.jsx` lines 954-978):
quantize the current cell, write back the chosen level and index, and spread
the rounding error to east (7/16), south (5/16), southwest (3/16) and
southeast (1/16), clamping each addition into `[0,1]` and skipping neighbors
outside the grid. -/
def ditherCell (levels : List ℚ) (targetCols rows : ℕ) (y x : ℕ)
    (s : DitherState) : DitherState :=
  let idx := y * targetCols + x
  let oldPixel := s.brightness.getD idx 0
  let q := quantizeToLevels oldPixel levels
  let error := oldPixel - q.value
  let br := s.brightness.setD idx q.value
  let qz := s.quantized.setD idx q.index
  let br := if x + 1 < targetCols then
      br.setD (idx + 1) (clamp01 (br.getD (idx + 1) 0 + error * (7/16)))
    else br
  let br := if y + 1 < rows then
      let south := idx + targetCols
      let br := br.setD south (clamp01 (br.getD south 0 + error * (5/16)))
      let br := if 0 < x then
          br.setD (south - 1) (clamp01 (br.getD (south - 1) 0 + error * (3/16)))
        else br
      if x + 1 < targetCols then
        br.setD (south + 1) (clamp01 (br.getD (south + 1) 0 + error * (1/16)))
      else br
    else br
  ⟨br, qz⟩

/-- Processing an explicit list of `(y, x)` cell coordinates in order. -/
def ditherCells (levels : List ℚ) (targetCols rows : ℕ) (cells : List (ℕ × ℕ))
    (s : DitherState) : DitherState :=
  cells.foldl (fun t c => ditherCell levels targetCols rows c.1 c.2 t) s

/-- The row-major visit order of the double loop: top-to-bottom rows,
left-to-right columns. -/
def rowMajor (targetCols rows : ℕ) : List (ℕ × ℕ) :=
  (List.range rows).flatMap fun y => (List.range targetCols).map fun x => (y, x)

/-- The full dithering pass, as the nested `for` loops of
`App.jsx` lines 953-980. -/
def ditherPass (levels : List ℚ) (targetCols rows : ℕ) (s : DitherState) :
    DitherState :=
  (List.range rows).foldl
    (fun t y => (List.range targetCols).foldl
      (fun t x => ditherCell levels targetCols rows y x t) t) s

/-- The nested loops visit exactly the row-major list of cells. -/
theorem ditherPass_eq_cells (levels : List ℚ) (targetCols rows : ℕ)
    (s : DitherState) :
    ditherPass levels targetCols rows s =
      ditherCells levels targetCols rows (rowMajor targetCols rows) s := by
  unfold ditherPass ditherCells rowMajor
  generalize List.range rows = ys
  induction ys generalizing s with
  | nil => rfl
  | cons y ys ih =>
    simp only [List.foldl_cons, List.flatMap_cons, List.foldl_append, List.foldl_map]
    exact ih _

/-- Combined description of reading after a guarded write. -/
theorem getD_setD (a : Array ℚ) (i j : ℕ) (v d : ℚ) :
    (a.setD i v).getD j d = if i = j ∧ i < a.size then v else a.getD j d := by
  by_cases hi : i < a.size
  · simp only [Array.setD, hi, dite_true]
    by_cases hij : i = j
    · subst hij
      simp [Array.getD, hi, Array.get_set]
    · by_cases hj : j < a.size
      · simp [Array.getD, hi, hj, Array.get_set, hij]
      · simp [Array.getD, hi, hj, hij]
  · simp only [Array.setD, hi, dite_false]
    simp [hi]

/-- Reading after a write at a different index is unchanged. -/
theorem getD_setD_ne (a : Array ℚ) {i j : ℕ} (v d : ℚ) (hij : i ≠ j) :
    (a.setD i v).getD j d = a.getD j d := by
  rw [getD_setD]
  simp [hij]

theorem clamp01_mem (v : ℚ) : 0 ≤ clamp01 v ∧ clamp01 v ≤ 1 := by
  unfold clamp01
  split_ifs with h1 h2
  · exact ⟨le_refl 0, by norm_num⟩
  · exact ⟨by norm_num, le_refl 1⟩
  · exact ⟨le_of_not_lt h1, le_of_not_lt h2⟩

/-- If every level lies in `[0,1]`, the quantizer's chosen value does too. -/
theorem quantize_value_mem (value : ℚ) (levels : List ℚ)
    (hlev : ∀ v ∈ levels, 0 ≤ v ∧ v ≤ 1) :
    0 ≤ (quantizeToLevels value levels).value ∧
      (quantizeToLevels value levels).value ≤ 1 := by
  rcases eq_or_ne levels [] with h | h
  · subst h; rw [quantize_empty]; exact ⟨le_refl 0, by norm_num⟩
  · obtain ⟨hidx, hval⟩ := quantize_valid value levels h
    rw [hval, List.getD_eq_getElem levels 0 hidx]
    exact hlev _ (List.getElem_mem hidx)

/-- The chosen value is a member of the levels list when it is non-empty. -/
theorem quantize_value_mem_levels (value : ℚ) (levels : List ℚ)
    (h : levels ≠ []) : (quantizeToLevels value levels).value ∈ levels := by
  obtain ⟨hidx, hval⟩ := quantize_valid value levels h
  rw [hval, List.getD_eq_getElem levels 0 hidx]
  exact List.getElem_mem hidx

/-- All entries of the brightness array (and the out-of-bounds default) lie
in `[0,1]`. -/
def inUnit (a : Array ℚ) : Prop := ∀ i : ℕ, 0 ≤ a.getD i 0 ∧ a.getD i 0 ≤ 1

theorem inUnit_setD {a : Array ℚ} {i : ℕ} {v : ℚ} (h : inUnit a)
    (h0 : 0 ≤ v) (h1 : v ≤ 1) : inUnit (a.setD i v) := by
  intro j
  rw [getD_setD]
  split_ifs with hcond
  · exact ⟨h0, h1⟩
  · exact h j

theorem inUnit_setD_clamp {a : Array ℚ} {i : ℕ} (w : ℚ) (h : inUnit a) :
    inUnit (a.setD i (clamp01 w)) :=
  inUnit_setD h (clamp01_mem w).1 (clamp01_mem w).2

theorem inUnit_setD_quant {a : Array ℚ} {i : ℕ} (v : ℚ) {levels : List ℚ}
    (hlev : ∀ u ∈ levels, 0 ≤ u ∧ u ≤ 1) (h : inUnit a) :
    inUnit (a.setD i (quantizeToLevels v levels).value) :=
  inUnit_setD h (quantize_value_mem v levels hlev).1 (quantize_value_mem v levels hlev).2

theorem inUnit_iff_toList (a : Array ℚ) :
    inUnit a ↔ ∀ v ∈ a.toList, 0 ≤ v ∧ v ≤ 1 := by
  constructor
  · intro h v hv
    obtain ⟨i, hi, rfl⟩ := List.mem_iff_getElem.mp hv
    have hi' : i < a.size := by simpa using hi
    have := h i
    rwa [Array.getD, dif_pos hi'] at this
  · intro h i
    by_cases hi : i < a.size
    · rw [Array.getD, dif_pos hi]
      exact h _ (Array.getElem_mem_toList a hi)
    · rw [Array.getD, dif_neg hi]
      exact ⟨le_refl 0, by norm_num⟩

/-- One dithering step keeps every brightness entry in `[0,1]`, provided all
levels are in `[0,1]`: the written-back value is a level (or 0 for an empty
levels array) and every neighbor addition is clamped. -/
theorem ditherCell_inUnit (levels : List ℚ) (targetCols rows y x : ℕ)
    (s : DitherState) (hlev : ∀ v ∈ levels, 0 ≤ v ∧ v ≤ 1)
    (h : inUnit s.brightness) :
    inUnit (ditherCell levels targetCols rows y x s).brightness := by
  simp only [ditherCell]
  split_ifs
  · iterate 4 apply inUnit_setD_clamp
    exact inUnit_setD_quant _ hlev h
  · iterate 3 apply inUnit_setD_clamp
    exact inUnit_setD_quant _ hlev h
  · iterate 2 apply inUnit_setD_clamp
    exact inUnit_setD_quant _ hlev h
  · iterate 1 apply inUnit_setD_clamp
    exact inUnit_setD_quant _ hlev h
  · iterate 1 apply inUnit_setD_clamp
    exact inUnit_setD_quant _ hlev h
  · exact inUnit_setD_quant _ hlev h

theorem ditherCells_inUnit (levels : List ℚ) (targetCols rows : ℕ)
    (cells : List (ℕ × ℕ)) (s : DitherState)
    (hlev : ∀ v ∈ levels, 0 ≤ v ∧ v ≤ 1) (h : inUnit s.brightness) :
    inUnit (ditherCells levels targetCols rows cells s).brightness := by
  induction cells generalizing s with
  | nil => exact h
  | cons c cs ih =>
    exact ih _ (ditherCell_inUnit levels targetCols rows c.1 c.2 s hlev h)

/-- A dithering step writes only at the current cell and strictly-later
indices: entries at smaller flat indices are untouched. -/
theorem ditherCell_getD_lt (levels : List ℚ) (targetCols rows y x : ℕ)
    (s : DitherState) (hx : x < targetCols) {j : ℕ} (hj : j < y * targetCols + x) :
    (ditherCell levels targetCols rows y x s).brightness.getD j 0 =
      s.brightness.getD j 0 := by
  simp only [ditherCell]
  split_ifs <;> (repeat rw [getD_setD_ne]) <;> omega

/-- The size of the brightness buffer is unchanged by a dithering step. -/
theorem ditherCell_size (levels : List ℚ) (targetCols rows y x : ℕ)
    (s : DitherState) :
    (ditherCell levels targetCols rows y x s).brightness.size =
      s.brightness.size := by
  simp only [ditherCell]
  split_ifs <;> simp [Array.size_setD]

/-- After its own step, the current cell holds exactly the quantizer's chosen
value. -/
theorem ditherCell_getD_self (levels : List ℚ) (targetCols rows y x : ℕ)
    (s : DitherState) (hx : x < targetCols)
    (hsize : y * targetCols + x < s.brightness.size) :
    (ditherCell levels targetCols rows y x s).brightness.getD
        (y * targetCols + x) 0 =
      (quantizeToLevels (s.brightness.getD (y * targetCols + x) 0) levels).value := by
  simp only [ditherCell]
  split_ifs with h1 h2 h3
  · iterate 4 rw [getD_setD_ne]
    rw [getD_setD, if_pos ⟨rfl, hsize⟩]
    all_goals omega
  · iterate 3 rw [getD_setD_ne]
    rw [getD_setD, if_pos ⟨rfl, hsize⟩]
    all_goals omega
  · iterate 2 rw [getD_setD_ne]
    rw [getD_setD, if_pos ⟨rfl, hsize⟩]
    all_goals omega
  · iterate 1 rw [getD_setD_ne]
    rw [getD_setD, if_pos ⟨rfl, hsize⟩]
    all_goals omega
  · iterate 1 rw [getD_setD_ne]
    rw [getD_setD, if_pos ⟨rfl, hsize⟩]
    all_goals omega
  · rw [getD_setD, if_pos ⟨rfl, hsize⟩]

theorem ditherCells_cons (levels : List ℚ) (targetCols rows : ℕ)
    (c : ℕ × ℕ) (cs : List (ℕ × ℕ)) (s : DitherState) :
    ditherCells levels targetCols rows (c :: cs) s =
      ditherCells levels targetCols rows cs
        (ditherCell levels targetCols rows c.1 c.2 s) := rfl

theorem ditherCells_size (levels : List ℚ) (targetCols rows : ℕ)
    (cells : List (ℕ × ℕ)) (s : DitherState) :
    (ditherCells levels targetCols rows cells s).brightness.size =
      s.brightness.size := by
  induction cells generalizing s with
  | nil => rfl
  | cons c cs ih =>
    rw [ditherCells_cons, ih, ditherCell_size]

/-- Processing any list of cells that all lie strictly after flat index `j`
leaves the entry at `j` unchanged. -/
theorem ditherCells_getD_lt (levels : List ℚ) (targetCols rows : ℕ)
    (cells : List (ℕ × ℕ)) (s : DitherState) (j : ℕ)
    (hc : ∀ c ∈ cells, c.2 < targetCols ∧ j < c.1 * targetCols + c.2) :
    (ditherCells levels targetCols rows cells s).brightness.getD j 0 =
      s.brightness.getD j 0 := by
  induction cells generalizing s with
  | nil => rfl
  | cons c cs ih =>
    have h1 := hc c (List.mem_cons_self c cs)
    rw [ditherCells_cons, ih _ fun d hd => hc d (List.mem_cons_of_mem c hd),
      ditherCell_getD_lt levels targetCols rows c.1 c.2 s h1.1 h1.2]

/-- Flat indices grow strictly along a row-major traversal. -/
theorem flatIdx_lt {cols y1 x1 y2 x2 : ℕ} (hx1 : x1 < cols) (hy : y1 < y2) :
    y1 * cols + x1 < y2 * cols + x2 := by
  have h2 : (y1 + 1) * cols ≤ y2 * cols := Nat.mul_le_mul_right cols hy
  rw [Nat.succ_mul] at h2
  omega

theorem mem_rowMajor {cols rows : ℕ} {c : ℕ × ℕ} :
    c ∈ rowMajor cols rows ↔ c.1 < rows ∧ c.2 < cols := by
  cases c with
  | mk a b =>
    simp only [rowMajor, List.mem_flatMap, List.mem_map, List.mem_range,
      Prod.mk.injEq]
    constructor
    · rintro ⟨y, hy, x, hx, rfl, rfl⟩
      exact ⟨hy, hx⟩
    · rintro ⟨ha, hb⟩
      exact ⟨a, ha, b, hb, rfl, rfl⟩

theorem rowMajor_pairwise (cols rows : ℕ) :
    List.Pairwise (fun a b : ℕ × ℕ => a.1 * cols + a.2 < b.1 * cols + b.2)
      (rowMajor cols rows) := by
  unfold rowMajor
  rw [List.pairwise_flatMap]
  constructor
  · intro y _
    rw [List.pairwise_map]
    exact (List.pairwise_lt_range cols).imp fun hab => by simpa using hab
  · refine (List.pairwise_lt_range rows).imp ?_
    intro y1 y2 hy c hc d hd
    obtain ⟨x1, hx1, rfl⟩ := List.mem_map.mp hc
    obtain ⟨x2, _, rfl⟩ := List.mem_map.mp hd
    exact flatIdx_lt (List.mem_range.mp hx1) hy

/-- After a full pass over a strictly increasing cell list, every processed
cell's brightness is one of the quantization levels. -/
theorem ditherCells_mem_levels (levels : List ℚ) (targetCols rows : ℕ)
    (hne : levels ≠ []) :
    ∀ (cells : List (ℕ × ℕ)) (s : DitherState),
      List.Pairwise (fun a b : ℕ × ℕ => a.1 * targetCols + a.2 < b.1 * targetCols + b.2) cells →
      (∀ c ∈ cells, c.2 < targetCols ∧ c.1 * targetCols + c.2 < s.brightness.size) →
      ∀ c ∈ cells,
        (ditherCells levels targetCols rows cells s).brightness.getD
          (c.1 * targetCols + c.2) 0 ∈ levels := by
  intro cells
  induction cells with
  | nil => intro s _ _ c hc; cases hc
  | cons c cs ih =>
    intro s hpw hbound d hd
    obtain ⟨hrel, hpw'⟩ := List.pairwise_cons.mp hpw
    rcases List.mem_cons.mp hd with rfl | hd'
    · rw [ditherCells_cons, ditherCells_getD_lt]
      · rw [ditherCell_getD_self levels targetCols rows d.1 d.2 s
          (hbound d (List.mem_cons_self d cs)).1
          (hbound d (List.mem_cons_self d cs)).2]
        exact quantize_value_mem_levels _ _ hne
      · intro e he
        exact ⟨(hbound e (List.mem_cons_of_mem d he)).1, hrel e he⟩
    · rw [ditherCells_cons]
      refine ih _ hpw' ?_ d hd'
      intro e he
      refine ⟨(hbound e (List.mem_cons_of_mem c he)).1, ?_⟩
      rw [ditherCell_size]
      exact (hbound e (List.mem_cons_of_mem c he)).2

/-- The quantized indices written by a step are in range for a non-empty
levels list. -/
theorem ditherCell_quantized_lt (levels : List ℚ) (targetCols rows y x : ℕ)
    (s : DitherState) (hne : levels ≠ [])
    (h : ∀ v ∈ s.quantized.toList, v < levels.length) :
    ∀ v ∈ (ditherCell levels targetCols rows y x s).quantized.toList,
      v < levels.length := by
  intro v hv
  have hq : (ditherCell levels targetCols rows y x s).quantized =
      s.quantized.setD (y * targetCols + x)
        (quantizeToLevels (s.brightness.getD (y * targetCols + x) 0) levels).index := rfl
  rw [hq] at hv
  unfold Array.setD at hv
  split at hv
  · rw [Array.toList_set] at hv
    rcases List.mem_or_eq_of_mem_set hv with h' | rfl
    · exact h v h'
    · exact (quantize_valid _ levels hne).1
  · exact h v hv

theorem ditherCells_quantized_lt (levels : List ℚ) (targetCols rows : ℕ)
    (cells : List (ℕ × ℕ)) (s : DitherState) (hne : levels ≠ [])
    (h : ∀ v ∈ s.quantized.toList, v < levels.length) :
    ∀ v ∈ (ditherCells levels targetCols rows cells s).quantized.toList,
      v < levels.length := by
  induction cells generalizing s with
  | nil => exact h
  | cons c cs ih =>
    rw [ditherCells_cons]
    exact ih _ (ditherCell_quantized_lt levels targetCols rows c.1 c.2 s hne h)

/-- C1: for every brightness field with `levels.length ≥ 2`, the row-major
Floyd-Steinberg pass (east 7/16, south 5/16, southwest 3/16, southeast 1/16,
each addition clamped into `[0,1]`, out-of-bounds neighbors skipped) keeps
every brightness value in `[0,1]` throughout: after processing any list of
cells (hence any prefix of the row-major order) all values remain in `[0,1]`,
and each single step never touches cells at smaller flat indices (so the
error only flows to not-yet-visited neighbors). -/
theorem claim_C1 (levels : List ℚ) (targetCols rows : ℕ) (s : DitherState)
    (hlen : 2 ≤ levels.length)
    (hlev : ∀ v ∈ levels, 0 ≤ v ∧ v ≤ 1)
    (hinit : ∀ v ∈ s.brightness.toList, 0 ≤ v ∧ v ≤ 1) :
    (∀ cells : List (ℕ × ℕ),
      ∀ v ∈ (ditherCells levels targetCols rows cells s).brightness.toList,
        0 ≤ v ∧ v ≤ 1) ∧
    (∀ v ∈ (ditherPass levels targetCols rows s).brightness.toList,
      0 ≤ v ∧ v ≤ 1) ∧
    (∀ y x : ℕ, x < targetCols → ∀ j : ℕ, j < y * targetCols + x →
      (ditherCell levels targetCols rows y x s).brightness.getD j 0 =
        s.brightness.getD j 0) := by
  have hall : ∀ cells : List (ℕ × ℕ),
      ∀ v ∈ (ditherCells levels targetCols rows cells s).brightness.toList,
        0 ≤ v ∧ v ≤ 1 := by
    intro cells
    exact (inUnit_iff_toList _).mp
      (ditherCells_inUnit levels targetCols rows cells s hlev
        ((inUnit_iff_toList _).mpr hinit))
  refine ⟨hall, ?_, ?_⟩
  · rw [ditherPass_eq_cells]
    exact hall (rowMajor targetCols rows)
  · intro y x hx j hj
    exact ditherCell_getD_lt levels targetCols rows y x s hx hj

/-- Witness for C1 at a concrete input: a 1-by-1 field holding 1/2 with
levels `[0, 1]`. -/
theorem claim_C1_witness :
    (∀ v ∈ ([0, 1] : List ℚ), 0 ≤ v ∧ v ≤ 1) ∧
    (∀ v ∈ (DitherState.mk #[(1 : ℚ)/2] #[0]).brightness.toList, 0 ≤ v ∧ v ≤ 1) ∧
    (∀ v ∈ (ditherPass [0, 1] 1 1 (DitherState.mk #[(1 : ℚ)/2] #[0])).brightness.toList,
      0 ≤ v ∧ v ≤ 1) := by
  have h1 : ∀ v ∈ ([0, 1] : List ℚ), 0 ≤ v ∧ v ≤ 1 := by
    intro v hv
    rcases List.mem_cons.mp hv with rfl | hv
    · norm_num
    · rcases List.mem_cons.mp hv with rfl | hv
      · norm_num
      · cases hv
  have h2 : ∀ v ∈ (DitherState.mk #[(1 : ℚ)/2] #[0]).brightness.toList,
      0 ≤ v ∧ v ≤ 1 := by
    intro v hv
    simp only [Array.toList_toArray] at hv
    rcases List.mem_cons.mp hv with rfl | hv
    · norm_num
    · cases hv
  exact ⟨h1, h2,
    (claim_C1 [0, 1] 1 1 (DitherState.mk #[(1 : ℚ)/2] #[0]) (by norm_num) h1 h2).2.1⟩

/-- C2 counterexample: for the sorted two-entry levels array `[0, 0]` and
value `0`, the value is `≥ levels[last]`, yet `quantizeToLevels` returns
index 0 rather than the last index 1, because the low-end clamp
`value ≤ levels[0]` is checked first. -/
theorem claim_C2_cex :
    List.Pairwise (· ≤ ·) ([0, 0] : List ℚ) ∧
    2 ≤ ([0, 0] : List ℚ).length ∧
    ([0, 0] : List ℚ).getD (([0, 0] : List ℚ).length - 1) 0 ≤ (0 : ℚ) ∧
    (quantizeToLevels 0 [(0 : ℚ), 0]).index = 0 ∧
    (quantizeToLevels 0 [(0 : ℚ), 0]).index ≠ ([0, 0] : List ℚ).length - 1 := by
  have h0 : (quantizeToLevels 0 [(0 : ℚ), 0]).index = 0 := rfl
  refine ⟨by decide, by decide, by norm_num, h0, ?_⟩
  rw [h0]
  norm_num

/-- C2 (amended): for every sorted non-decreasing levels array with at least
two entries, `quantizeToLevels` returns index 0 whenever
`value ≤ levels[0]`; it returns the last index whenever
`value ≥ levels[last]` and the low-end clamp did not already fire; otherwise
it finds a bracketing pair `levels[j] ≤ value < levels[j+1]` and picks
whichever of the two is numerically closer, preferring the lower index on an
exact tie. For `levels = [0, 0.5, 1]`, value `0.5` yields index 1 and value
`0.25` yields index 0. -/
theorem claim_C2 (levels : List ℚ) (value : ℚ)
    (hlen : 2 ≤ levels.length) (hsort : List.Pairwise (· ≤ ·) levels) :
    (value ≤ levels.getD 0 0 →
      quantizeToLevels value levels = ⟨0, levels.getD 0 0⟩) ∧
    (levels.getD (levels.length - 1) 0 ≤ value → ¬ value ≤ levels.getD 0 0 →
      quantizeToLevels value levels =
        ⟨levels.length - 1, levels.getD (levels.length - 1) 0⟩) ∧
    (levels.getD 0 0 < value → value < levels.getD (levels.length - 1) 0 →
      ∃ j, j + 1 ≤ levels.length - 1 ∧
        levels.getD j 0 ≤ value ∧ value < levels.getD (j + 1) 0 ∧
        quantizeToLevels value levels =
          if value - levels.getD j 0 ≤ levels.getD (j + 1) 0 - value
          then ⟨j, levels.getD j 0⟩ else ⟨j + 1, levels.getD (j + 1) 0⟩) ∧
    quantizeToLevels (1/2) [0, 1/2, 1] = ⟨1, 1/2⟩ ∧
    quantizeToLevels (1/4) [0, 1/2, 1] = ⟨0, 0⟩ := by
  refine ⟨?_, ?_, ?_, ?_, ?_⟩
  · intro h
    simp only [quantizeToLevels]
    rw [if_neg (by omega), if_neg (by omega), if_pos h]
  · intro h hn
    simp only [quantizeToLevels]
    rw [if_neg (by omega), if_neg (by omega), if_neg hn, if_pos h]
  · intro h1 h2
    obtain ⟨j, hj, hlo, hhi, hjle, hjlt⟩ :=
      searchLoop_spec levels value (levels.length - 1) 0 (levels.length - 1)
        (le_refl _) (by omega) (le_of_lt h1) h2
    refine ⟨j, hhi, hjle, hjlt, ?_⟩
    simp only [quantizeToLevels]
    rw [if_neg (by omega), if_neg (by omega), if_neg (not_le.mpr h1),
      if_neg (not_le.mpr h2), hj]
  · have hs : searchLoop [0, 1/2, 1] (1/2) 0 2 = (1, 2) := by
      rw [searchLoop]; norm_num; rw [searchLoop]; norm_num
    simp only [quantizeToLevels]
    norm_num [hs]
  · have hs : searchLoop [0, 1/2, 1] (1/4) 0 2 = (0, 1) := by
      rw [searchLoop]; norm_num; rw [searchLoop]; norm_num
    simp only [quantizeToLevels]
    norm_num [hs]

/-- Witness for C2 at the concrete inputs from the claim. -/
theorem claim_C2_witness :
    (2 ≤ ([0, 1/2, 1] : List ℚ).length) ∧
    List.Pairwise (· ≤ ·) ([0, 1/2, 1] : List ℚ) ∧
    ((1 : ℚ)/4 ≤ ([0, 1/2, 1] : List ℚ).getD 0 0 ∨
      quantizeToLevels (1/2) [0, 1/2, 1] = ⟨1, 1/2⟩) := by
  have hlen : 2 ≤ ([0, 1/2, 1] : List ℚ).length := by norm_num
  have hsort : List.Pairwise (· ≤ ·) ([0, 1/2, 1] : List ℚ) := by norm_num
  exact ⟨hlen, hsort, Or.inr (claim_C2 [0, 1/2, 1] (1/2) hlen hsort).2.2.2.1⟩

/-- C10: `quantizeToLevels` is total; on an empty levels array it returns
index 0 and value 0; on a non-empty array the index is always in range and
the value is the level stored at that index; consequently the quantized
field only holds valid ramp positions and, after a full dithering pass over
the grid, every cell's brightness is an actual level value. -/
theorem claim_C10 (value : ℚ) (levels : List ℚ) (targetCols rows : ℕ)
    (s : DitherState) :
    quantizeToLevels value [] = ⟨0, 0⟩ ∧
    (levels ≠ [] →
      (quantizeToLevels value levels).index ≤ levels.length - 1 ∧
      (quantizeToLevels value levels).value =
        levels.getD (quantizeToLevels value levels).index 0) ∧
    (levels ≠ [] →
      (∀ v ∈ s.quantized.toList, v < levels.length) →
      ∀ v ∈ (ditherPass levels targetCols rows s).quantized.toList,
        v < levels.length) ∧
    (levels ≠ [] → rows * targetCols ≤ s.brightness.size →
      ∀ y : ℕ, y < rows → ∀ x : ℕ, x < targetCols →
        (ditherPass levels targetCols rows s).brightness.getD
          (y * targetCols + x) 0 ∈ levels) := by
  refine ⟨quantize_empty value, ?_, ?_, ?_⟩
  · intro hne
    obtain ⟨h1, h2⟩ := quantize_valid value levels hne
    exact ⟨by omega, h2⟩
  · intro hne h
    rw [ditherPass_eq_cells]
    exact ditherCells_quantized_lt levels targetCols rows _ s hne h
  · intro hne hsize y hy x hx
    rw [ditherPass_eq_cells]
    refine ditherCells_mem_levels levels targetCols rows hne
      (rowMajor targetCols rows) s (rowMajor_pairwise targetCols rows) ?_
      (y, x) (mem_rowMajor.mpr ⟨hy, hx⟩)
    intro c hc
    obtain ⟨hc1, hc2⟩ := mem_rowMajor.mp hc
    refine ⟨hc2, ?_⟩
    have hmul : (c.1 + 1) * targetCols ≤ rows * targetCols :=
      Nat.mul_le_mul_right targetCols hc1
    rw [Nat.succ_mul] at hmul
    omega

/-- Witness for C10 at a concrete input: a 1-by-1 field with levels `[0, 1]`. -/
theorem claim_C10_witness :
    (([0, 1] : List ℚ) ≠ []) ∧
    (1 * 1 ≤ (DitherState.mk #[(3 : ℚ)/4] #[0]).brightness.size) ∧
    ((ditherPass [0, 1] 1 1 (DitherState.mk #[(3 : ℚ)/4] #[0])).brightness.getD 0 0
      ∈ ([0, 1] : List ℚ)) := by
  have h1 : ([0, 1] : List ℚ) ≠ [] := by simp
  have h2 : 1 * 1 ≤ (DitherState.mk #[(3 : ℚ)/4] #[0]).brightness.size := by decide
  have h3 := (claim_C10 0 [0, 1] 1 1 (DitherState.mk #[(3 : ℚ)/4] #[0])).2.2.2
    h1 h2 0 (by norm_num) 0 (by norm_num)
  simpa using h3

/-! ## Glyph calibration (`App.jsx` lines 1101-1175)

`measureCharBrightness` renders a glyph on a canvas and reads pixels back,
so the measurement is kept abstract as a function `measure : Char → ℚ`.
`Array.from(new Set([...chars]))` keeps the first occurrence of each
character in input order, modelled by `dedupFirst`; the stable
`Array.prototype.sort` with comparator `a.brightness - b.brightness` is
modelled by the stable `List.insertionSort` on the brightness key. -/

/-- Order-preserving deduplication keeping first occurrences, the behaviour
of `Array.from(new Set([...chars]))`. -/
def dedupFirst : List Char → List Char
  | [] => []
  | c :: rest => c :: dedupFirst (rest.filter fun d => d ≠ c)
termination_by l => l.length
decreasing_by
  have := List.length_filter_le (fun d => d ≠ c) rest
  simp only [List.length_cons]
  omega

theorem mem_dedupFirst : ∀ (l : List Char) (a : Char), a ∈ dedupFirst l ↔ a ∈ l
  | [], a => by simp [dedupFirst]
  | c :: rest, a => by
    rw [dedupFirst]
    by_cases hac : a = c
    · subst hac
      simp
    · simp only [List.mem_cons, hac, false_or]
      rw [mem_dedupFirst (rest.filter fun d => d ≠ c) a]
      simp [hac]
termination_by l => l.length
decreasing_by
  have := List.length_filter_le (fun d => d ≠ c) rest
  simp only [List.length_cons]
  omega

/-- `CharsetSpec`: the `{ ramp, levels, raw }` record returned by
calibration. -/
structure CharsetSpec where
  ramp : List Char
  levels : List ℚ
  raw : List Char
deriving Repr, DecidableEq

/-- `createUniformCharset` (`App.jsx` lines 1114-1129): the headless
fallback assigning uniform levels `i/(n-1)`. -/
def createUniformCharset (chars : List Char) : CharsetSpec :=
  if chars.length = 0 then ⟨[], [], chars⟩
  else if chars.length = 1 then ⟨chars, [0], chars⟩
  else
    ⟨chars,
      (List.range chars.length).map fun i => (i : ℚ) / ((chars.length : ℚ) - 1),
      chars⟩

/-- The comparator of `entries.sort((a, b) => a.brightness - b.brightness)`:
ascending on measured brightness. -/
def brightnessLE (a b : Char × ℚ) : Prop := a.2 ≤ b.2

instance : DecidableRel brightnessLE := fun a b => inferInstanceAs (Decidable (a.2 ≤ b.2))

instance : IsTotal (Char × ℚ) brightnessLE := ⟨fun a b => le_total a.2 b.2⟩

instance : IsTrans (Char × ℚ) brightnessLE := ⟨fun _ _ _ h1 h2 => le_trans h1 h2⟩

/-- `calibrateCharset` (`App.jsx` lines 1131-1156), parametrised by the
abstract per-glyph brightness measurement. -/
def calibrateCharset (measure : Char → ℚ) (chars : List Char) : CharsetSpec :=
  let uniqueChars := dedupFirst chars
  if uniqueChars.isEmpty then createUniformCharset chars
  else
    let entries := uniqueChars.map fun ch => (ch, measure ch)
    let sorted := List.insertionSort brightnessLE entries
    if sorted.isEmpty then createUniformCharset chars
    else
      let mn := (sorted.getD 0 (' ', 0)).2
      let mx := (sorted.getD (sorted.length - 1) (' ', 0)).2
      let range := max (1/1000000) (mx - mn)
      ⟨sorted.map Prod.fst,
        sorted.map fun e => if range = 0 then 0 else (e.2 - mn) / range,
        chars⟩

theorem dedupFirst_ne_nil {chars : List Char} (h : chars ≠ []) :
    dedupFirst chars ≠ [] := by
  cases chars with
  | nil => exact absurd rfl h
  | cons c rest => rw [dedupFirst]; exact List.cons_ne_nil _ _

/-- Stability of a single ordered insertion with respect to a brightness
class: the insertion point lies before every strictly brighter entry and
after all others, so the entries of any fixed brightness keep their order. -/
theorem filter_orderedInsert (q : ℚ) (a : Char × ℚ) (l : List (Char × ℚ)) :
    (l.orderedInsert brightnessLE a).filter (fun e => e.2 = q) =
      if a.2 = q then a :: l.filter (fun e => e.2 = q)
      else l.filter (fun e => e.2 = q) := by
  have hsplit : l.filter (fun e => e.2 = q) =
      ((l.takeWhile fun b => ¬ brightnessLE a b).filter (fun e => e.2 = q)) ++
      ((l.dropWhile fun b => ¬ brightnessLE a b).filter (fun e => e.2 = q)) := by
    conv_lhs => rw [← List.takeWhile_append_dropWhile
      (p := fun b => ¬ brightnessLE a b) (l := l)]
    rw [List.filter_append]
  rw [List.orderedInsert_eq_take_drop, List.filter_append, List.filter_cons]
  by_cases hq : a.2 = q
  · have htake : (l.takeWhile fun b => ¬ brightnessLE a b).filter
        (fun e => e.2 = q) = [] := by
      rw [List.filter_eq_nil_iff]
      intro b hb hbq
      have hpb := List.mem_takeWhile_imp hb
      simp only [decide_eq_true_eq] at hpb hbq
      exact hpb (le_of_eq (hq.trans hbq.symm))
    rw [if_pos hq, hsplit, htake]
    simp [hq]
  · rw [if_neg hq, hsplit]
    simp [hq]

/-- The stable sort preserves, for each brightness value, the original
relative order of the entries measuring that value. -/
theorem filter_insertionSort (q : ℚ) (l : List (Char × ℚ)) :
    (List.insertionSort brightnessLE l).filter (fun e => e.2 = q) =
      l.filter (fun e => e.2 = q) := by
  induction l with
  | nil => rfl
  | cons a l ih =>
    rw [List.insertionSort, filter_orderedInsert, ih, List.filter_cons]
    by_cases hq : a.2 = q <;> simp [hq]

/-- The sorted `entries` list built inside `calibrateCharset`. -/
def calSorted (measure : Char → ℚ) (chars : List Char) : List (Char × ℚ) :=
  List.insertionSort brightnessLE ((dedupFirst chars).map fun ch => (ch, measure ch))

/-- `min = entries[0].brightness` after sorting. -/
def calMin (measure : Char → ℚ) (chars : List Char) : ℚ :=
  ((calSorted measure chars).getD 0 (' ', 0)).2

/-- `max = entries[entries.length - 1].brightness` after sorting. -/
def calMax (measure : Char → ℚ) (chars : List Char) : ℚ :=
  ((calSorted measure chars).getD ((calSorted measure chars).length - 1) (' ', 0)).2

/-- `range = Math.max(1e-6, max - min)`. -/
def calRange (measure : Char → ℚ) (chars : List Char) : ℚ :=
  max (1/1000000) (calMax measure chars - calMin measure chars)

theorem calSorted_length (measure : Char → ℚ) (chars : List Char) :
    (calSorted measure chars).length = (dedupFirst chars).length := by
  rw [calSorted, List.length_insertionSort, List.length_map]

theorem calSorted_ne_nil {measure : Char → ℚ} {chars : List Char}
    (h : chars ≠ []) : calSorted measure chars ≠ [] := by
  have h1 := dedupFirst_ne_nil h
  intro h2
  have := calSorted_length measure chars
  rw [h2] at this
  exact h1 (List.length_eq_zero.mp this.symm)

theorem calRange_pos (measure : Char → ℚ) (chars : List Char) :
    0 < calRange measure chars :=
  lt_of_lt_of_le (by norm_num) (le_max_left _ _)

/-- On a non-empty charset, `calibrateCharset` takes the measured path. -/
theorem calibrateCharset_eq (measure : Char → ℚ) (chars : List Char)
    (h : chars ≠ []) :
    calibrateCharset measure chars =
      ⟨(calSorted measure chars).map Prod.fst,
       (calSorted measure chars).map fun e =>
         if calRange measure chars = 0 then 0
         else (e.2 - calMin measure chars) / calRange measure chars,
       chars⟩ := by
  have h1 : ((dedupFirst chars).isEmpty) = false :=
    List.isEmpty_eq_false.mpr (dedupFirst_ne_nil h)
  have h2 : ((List.insertionSort brightnessLE
      ((dedupFirst chars).map fun ch => (ch, measure ch))).isEmpty) = false :=
    List.isEmpty_eq_false.mpr (calSorted_ne_nil h)
  simp only [calibrateCharset, h1, h2, Bool.false_eq_true, if_false,
    calSorted, calMin, calMax, calRange]

/-- Every element of the sorted entries list pairs a glyph with its
measurement. -/
theorem calSorted_snd {measure : Char → ℚ} {chars : List Char}
    {e : Char × ℚ} (he : e ∈ calSorted measure chars) : e.2 = measure e.1 := by
  rw [calSorted, List.mem_insertionSort] at he
  obtain ⟨c, _, rfl⟩ := List.mem_map.mp he
  rfl

theorem calSorted_mem_iff {measure : Char → ℚ} {chars : List Char} {c : Char} :
    (c, measure c) ∈ calSorted measure chars ↔ c ∈ chars := by
  rw [calSorted, List.mem_insertionSort, List.mem_map]
  constructor
  · rintro ⟨d, hd, he⟩
    cases he
    exact (mem_dedupFirst chars c).mp hd
  · intro hc
    exact ⟨c, (mem_dedupFirst chars c).mpr hc, rfl⟩

/-- The first entry of the sorted list is a lower bound, the last an upper
bound. -/
theorem calSorted_bounds {measure : Char → ℚ} {chars : List Char}
    {e : Char × ℚ} (he : e ∈ calSorted measure chars) :
    calMin measure chars ≤ e.2 ∧ e.2 ≤ calMax measure chars := by
  have hs : List.Pairwise brightnessLE (calSorted measure chars) :=
    List.sorted_insertionSort brightnessLE _
  obtain ⟨k, hk, rfl⟩ := List.mem_iff_getElem.mp he
  have hlen : 0 < (calSorted measure chars).length := by omega
  have hpw := List.pairwise_iff_getElem.mp hs
  constructor
  · rw [calMin, List.getD_eq_getElem _ _ hlen]
    rcases Nat.eq_zero_or_pos k with rfl | hkpos
    · exact le_refl _
    · exact hpw 0 k hlen hk hkpos
  · rw [calMax, List.getD_eq_getElem _ _ (by omega)]
    rcases eq_or_lt_of_le (Nat.le_sub_one_of_lt hk) with heq | hlt
    · exact le_of_eq (by congr 2)
    · exact hpw k _ hk (by omega) hlt

theorem calSorted_fst_mem {measure : Char → ℚ} {chars : List Char}
    {e : Char × ℚ} (he : e ∈ calSorted measure chars) : e.1 ∈ chars := by
  rw [calSorted, List.mem_insertionSort] at he
  obtain ⟨c, hc, rfl⟩ := List.mem_map.mp he
  exact (mem_dedupFirst chars c).mp hc

/-- C5: for every charset, calibration collapses duplicates and the ramp is
a permutation of the deduplicated input, sorted non-decreasing by measured
brightness with ties kept in original input order (stable sort); the levels
are non-decreasing in ramp order, and calibration is a pure function, so
repeated calls agree. -/
theorem claim_C5 (measure : Char → ℚ) (chars : List Char) :
    (calibrateCharset measure chars).ramp.Perm (dedupFirst chars) ∧
    List.Pairwise (fun a b => measure a ≤ measure b)
      (calibrateCharset measure chars).ramp ∧
    (∀ q : ℚ, (calibrateCharset measure chars).ramp.filter
        (fun c => measure c = q) =
      (dedupFirst chars).filter (fun c => measure c = q)) ∧
    List.Pairwise (· ≤ ·) (calibrateCharset measure chars).levels ∧
    calibrateCharset measure chars = calibrateCharset measure chars := by
  rcases eq_or_ne chars [] with rfl | h
  · have he : calibrateCharset measure [] = ⟨[], [], []⟩ := by
      simp [calibrateCharset, dedupFirst, createUniformCharset]
    rw [he]
    refine ⟨?_, ?_, ?_, ?_, rfl⟩ <;> simp [dedupFirst]
  · rw [calibrateCharset_eq measure chars h]
    have hsorted : List.Pairwise brightnessLE (calSorted measure chars) := by
      rw [calSorted]
      exact List.sorted_insertionSort brightnessLE _
    refine ⟨?_, ?_, ?_, ?_, rfl⟩
    · have h1 : (calSorted measure chars).Perm
          ((dedupFirst chars).map fun ch => (ch, measure ch)) := by
        rw [calSorted]
        exact List.perm_insertionSort brightnessLE _
      have h2 := h1.map Prod.fst
      rw [List.map_map,
        show (Prod.fst ∘ fun ch => (ch, measure ch)) = id from rfl,
        List.map_id] at h2
      exact h2
    · rw [List.pairwise_map]
      refine List.Pairwise.imp_of_mem ?_ hsorted
      intro a b ha hb hr
      rw [← calSorted_snd ha, ← calSorted_snd hb]
      exact hr
    · intro q
      rw [List.filter_map]
      have hcong : (calSorted measure chars).filter
          ((fun c => decide (measure c = q)) ∘ Prod.fst) =
          (calSorted measure chars).filter (fun e => e.2 = q) := by
        apply List.filter_congr
        intro e he
        simp only [Function.comp_apply]
        rw [calSorted_snd he]
      rw [hcong, calSorted, filter_insertionSort]
      have hcong2 : ((dedupFirst chars).map fun ch => (ch, measure ch)).filter
          (fun e => e.2 = q) =
          ((dedupFirst chars).map fun ch => (ch, measure ch)).filter
            ((fun c => decide (measure c = q)) ∘ Prod.fst) := by
        apply List.filter_congr
        intro e he
        obtain ⟨c, _, rfl⟩ := List.mem_map.mp he
        rfl
      rw [hcong2, ← List.filter_map, List.map_map,
        show (Prod.fst ∘ fun ch => (ch, measure ch)) = id from rfl,
        List.map_id]
    · rw [List.pairwise_map]
      refine List.Pairwise.imp ?_ hsorted
      intro a b hr
      rw [if_neg (ne_of_gt (calRange_pos measure chars)),
        if_neg (ne_of_gt (calRange_pos measure chars))]
      exact (div_le_div_iff_of_pos_right (calRange_pos measure chars)).mpr
        (sub_le_sub_right hr _)

/-- C3 counterexample: with two glyphs measuring 0 and 1/10000000 (a spread
smaller than the 1e-6 guard in `range = Math.max(1e-6, max - min)`), the
calibrated ramp has length 2 but the top level is 1/10, not 1. -/
theorem claim_C3_cex :
    (calibrateCharset (fun c => if c = 'b' then 1/10000000 else 0)
        ['a', 'b']).ramp.length = 2 ∧
    (calibrateCharset (fun c => if c = 'b' then 1/10000000 else 0)
        ['a', 'b']).levels.getD 1 0 = 1/10 ∧
    ((1 : ℚ)/10 ≠ 1) := by
  have hded : dedupFirst ['a', 'b'] = ['a', 'b'] := by
    simp +decide [dedupFirst]
  refine ⟨?_, ?_, by norm_num⟩ <;>
    · rw [calibrateCharset_eq _ _ (by simp), calSorted, hded]
      norm_num +decide [List.insertionSort, List.orderedInsert, brightnessLE,
        calMin, calMax, calRange, calSorted, hded, max_def]

/-- C3 (amended): calibrated levels always start at 0 for a non-empty
charset; the top level equals 1 whenever the spread of measured
brightnesses is at least the 1e-6 guard used in
`range = Math.max(1e-6, max - min)` (for spreads below the guard the top
level is `(max-min)/1e-6 < 1`); when all glyphs measure identically every
level is 0; a single-glyph charset yields levels `[0]`; an empty charset
yields empty ramp and levels. -/
theorem claim_C3 (measure : Char → ℚ) (chars : List Char) :
    (chars ≠ [] → (calibrateCharset measure chars).levels.getD 0 0 = 0) ∧
    ((∃ c ∈ chars, ∃ c' ∈ chars, 1/1000000 ≤ measure c - measure c') →
      (calibrateCharset measure chars).levels.getD
        ((calibrateCharset measure chars).levels.length - 1) 0 = 1) ∧
    ((∀ c ∈ chars, ∀ c' ∈ chars, measure c = measure c') →
      ∀ v ∈ (calibrateCharset measure chars).levels, v = 0) ∧
    ((dedupFirst chars).length = 1 →
      (calibrateCharset measure chars).levels = [0]) ∧
    (chars = [] → (calibrateCharset measure chars).levels = [] ∧
      (calibrateCharset measure chars).ramp = []) := by
  refine ⟨?_, ?_, ?_, ?_, ?_⟩
  · intro h
    rw [calibrateCharset_eq measure chars h]
    have hlen : 0 < (calSorted measure chars).length :=
      List.length_pos.mpr (calSorted_ne_nil h)
    show (List.map _ (calSorted measure chars)).getD 0 0 = 0
    rw [List.getD_eq_getElem _ _ (by simpa using hlen), List.getElem_map,
      if_neg (ne_of_gt (calRange_pos measure chars)), calMin,
      List.getD_eq_getElem _ _ hlen, sub_self, zero_div]
  · rintro ⟨c, hc, c', hc', hge⟩
    have h : chars ≠ [] := by
      intro he
      subst he
      exact absurd hc (List.not_mem_nil c)
    rw [calibrateCharset_eq measure chars h]
    have hlen : 0 < (calSorted measure chars).length :=
      List.length_pos.mpr (calSorted_ne_nil h)
    have hmc : (c, measure c) ∈ calSorted measure chars :=
      calSorted_mem_iff.mpr hc
    have hmc' : (c', measure c') ∈ calSorted measure chars :=
      calSorted_mem_iff.mpr hc'
    have h1 := (calSorted_bounds hmc).2
    have h2 := (calSorted_bounds hmc').1
    simp only at h1 h2
    have hspread : 1/1000000 ≤ calMax measure chars - calMin measure chars := by
      linarith
    have hrange : calRange measure chars =
        calMax measure chars - calMin measure chars := max_eq_right hspread
    have hpos : (0 : ℚ) < calMax measure chars - calMin measure chars := by
      linarith
    show (List.map _ (calSorted measure chars)).getD
      ((List.map _ (calSorted measure chars)).length - 1) 0 = 1
    rw [List.length_map, List.getD_eq_getElem _ _ (by simpa using Nat.sub_lt hlen Nat.one_pos),
      List.getElem_map, if_neg (ne_of_gt (calRange_pos measure chars))]
    have hx : (calSorted measure chars)[(calSorted measure chars).length - 1].2 =
        calMax measure chars := by
      rw [calMax, List.getD_eq_getElem _ _ (Nat.sub_lt hlen Nat.one_pos)]
    rw [hx, hrange, div_self (ne_of_gt hpos)]
  · intro hall v hv
    rcases eq_or_ne chars [] with rfl | h
    · revert hv
      simp [calibrateCharset, dedupFirst, createUniformCharset]
    · rw [calibrateCharset_eq measure chars h] at hv
      simp only at hv
      obtain ⟨e, he, rfl⟩ := List.mem_map.mp hv
      have hlen : 0 < (calSorted measure chars).length :=
        List.length_pos.mpr (calSorted_ne_nil h)
      have hhd : (calSorted measure chars).getD 0 (' ', 0) ∈
          calSorted measure chars := by
        rw [List.getD_eq_getElem _ _ hlen]
        exact List.getElem_mem hlen
      have heq : e.2 = calMin measure chars := by
        rw [calSorted_snd he, calMin, calSorted_snd hhd]
        exact hall _ (calSorted_fst_mem he) _ (calSorted_fst_mem hhd)
      rw [if_neg (ne_of_gt (calRange_pos measure chars)), heq, sub_self,
        zero_div]
  · intro h1
    have h : chars ≠ [] := by
      intro he
      subst he
      simp [dedupFirst] at h1
    rw [calibrateCharset_eq measure chars h]
    have hlen : (calSorted measure chars).length = 1 := by
      rw [calSorted_length]
      exact h1
    obtain ⟨e, he⟩ := List.length_eq_one.mp hlen
    have hmin : calMin measure chars = e.2 := by
      rw [calMin, he]
      rfl
    show List.map _ (calSorted measure chars) = [0]
    rw [he, List.map_cons, List.map_nil,
      if_neg (ne_of_gt (calRange_pos measure chars)), hmin, sub_self, zero_div]
  · rintro rfl
    constructor <;> simp [calibrateCharset, dedupFirst, createUniformCharset]

/-- Witness for C3 at concrete inputs: a one-glyph charset for the first
level, and a two-glyph charset with spread 1 for the top level. -/
theorem claim_C3_witness :
    ((['a'] : List Char) ≠ []) ∧
    (calibrateCharset (fun _ => 0) ['a']).levels.getD 0 0 = 0 ∧
    (∃ c ∈ (['a', 'b'] : List Char), ∃ c' ∈ (['a', 'b'] : List Char),
      1/1000000 ≤ (fun c => if c = 'b' then (1 : ℚ) else 0) c -
        (fun c => if c = 'b' then (1 : ℚ) else 0) c') ∧
    (calibrateCharset (fun c => if c = 'b' then (1 : ℚ) else 0)
        ['a', 'b']).levels.getD
      ((calibrateCharset (fun c => if c = 'b' then (1 : ℚ) else 0)
        ['a', 'b']).levels.length - 1) 0 = 1 := by
  have h1 : (['a'] : List Char) ≠ [] := by simp
  have h2 : ∃ c ∈ (['a', 'b'] : List Char), ∃ c' ∈ (['a', 'b'] : List Char),
      1/1000000 ≤ (fun c => if c = 'b' then (1 : ℚ) else 0) c -
        (fun c => if c = 'b' then (1 : ℚ) else 0) c' := by
    refine ⟨'b', by simp, 'a', by simp, by norm_num +decide⟩
  exact ⟨h1, (claim_C3 (fun _ => 0) ['a']).1 h1,
    h2, (claim_C3 (fun c => if c = 'b' then (1 : ℚ) else 0) ['a', 'b']).2.1 h2⟩

/-! ## The conversion pipeline `imageUrlToAscii` (`App.jsx` lines 899-1012)

The canvas draw/readback (`drawImage` + `getImageData`) delivers the RGBA
byte stream; it is modelled by the abstract byte function `data : ℕ → ℕ`,
and its occurrence in the control flow is recorded in an effect trace so
that the order of sampling, the empty-ramp check and dithering is
preserved. `Math.pow(v, gamma)` is the abstract `powGamma`. -/

/-- `escapeHtml` (`App.jsx` lines 1092-1099). -/
def escapeHtml (s : String) : String :=
  ((((s.replace "&" "&amp;").replace "<" "&lt;").replace ">" "&gt;").replace
    "\"" "&quot;").replace "\x27" "&#039;"

/-- Perceptual luminance `(0.2126*r + 0.7152*g + 0.0722*b) / 255`
(`App.jsx` lines 999 and 502). -/
def lumOf (r g b : ℕ) : ℚ :=
  (2126/10000 * (r : ℚ) + 7152/10000 * (g : ℚ) + 722/10000 * (b : ℚ)) / 255

/-- The colorized foreground choice (`App.jsx` line 1000):
`luminance > 0.6 ? "rgb(0,0,0)" : "rgb(255,255,255)"`. -/
def textColorFor (r g b : ℕ) : String :=
  if 6/10 < lumOf r g b then "rgb(0,0,0)" else "rgb(255,255,255)"

/-- A `Cell = { char, r, g, b }` of the structured output grid. -/
structure Cell where
  char : Char
  r : ℕ
  g : ℕ
  b : ℕ
deriving Repr, DecidableEq

/-- The `{ text, html, cells }` record returned by `imageUrlToAscii`. -/
structure ConversionResult where
  text : String
  html : String
  cells : List (List Cell)
deriving Repr, DecidableEq

/-- Externally visible pipeline effects: the canvas sampling
(`drawImage` + `getImageData`) and the error-diffusion pass. -/
inductive Effect where
  | sample
  | dither
deriving Repr, DecidableEq

/-- The parameters of `imageUrlToAscii`; `ramp`/`levels` come from the
charset calibration, `data` is the RGBA byte stream read back from the
scratch canvas. -/
structure AsciiParams where
  targetCols : ℕ
  imgW : ℕ
  imgH : ℕ
  ramp : List Char
  levels : List ℚ
  invert : Bool
  powGamma : ℚ → ℚ
  colorize : Bool
  data : ℕ → ℕ

/-- The `bright(r, g, b)` closure (`App.jsx` lines 922-927):
gamma-adjusted clamped luminance with optional inversion. -/
def bright (p : AsciiParams) (r g b : ℕ) : ℚ :=
  let v := (2126/10000 * (r : ℚ) + 7152/10000 * (g : ℚ) + 722/10000 * (b : ℚ)) / 255
  let v := min 1 (max 0 (p.powGamma v))
  if p.invert then 1 - v else v

/-- Filling the brightness buffer from the sampled pixels
(`App.jsx` lines 934-943). -/
def initBrightness (p : AsciiParams) (rows : ℕ) : Array ℚ :=
  ((List.range (rows * p.targetCols)).map fun idx =>
    bright p (p.data (idx * 4)) (p.data (idx * 4 + 1)) (p.data (idx * 4 + 2))).toArray

/-- The brightness/quantized state after the quantization stage
(`App.jsx` lines 945-981): with at most one ramp glyph every index is 0 and
the brightness is forced to `levels[0] ?? 0`; otherwise the full
Floyd-Steinberg pass runs. -/
def pipelineState (p : AsciiParams) : DitherState :=
  let rows := computeRows p.imgW p.imgH p.targetCols
  let total := rows * p.targetCols
  if p.ramp.length ≤ 1 then
    ⟨Array.mkArray total (p.levels.getD 0 0), Array.mkArray total 0⟩
  else
    ditherPass p.levels p.targetCols rows ⟨initBrightness p rows, Array.mkArray total 0⟩

/-- One output cell (`App.jsx` lines 987-996): the glyph comes from the
quantized index, the recorded `r`, `g`, `b` are re-read from the original
sampled data. -/
def cellFor (p : AsciiParams) (quantized : Array ℕ) (y x : ℕ) : Cell :=
  let idx := y * p.targetCols + x
  let dataIdx := idx * 4
  let i := if 1 < p.ramp.length then quantized.getD idx 0 else 0
  ⟨p.ramp.getD i ' ', p.data dataIdx, p.data (dataIdx + 1), p.data (dataIdx + 2)⟩

/-- The colorized `<span>` of one cell (`App.jsx` lines 997-1002). -/
def cellSpan (c : Cell) : String :=
  let glyph := if c.char = ' ' then "&nbsp;" else escapeHtml (String.mk [c.char])
  "<span style=\"display:inline-block;width:1ch;height:1em;background-color: rgb(" ++
    toString c.r ++ "," ++ toString c.g ++ "," ++ toString c.b ++ ");color:" ++
    textColorFor c.r c.g c.b ++ ";font-family:inherit;\">" ++ glyph ++ "</span>"

/-- One row of the structured cell grid (`App.jsx` lines 984-1006). -/
def rowCells (p : AsciiParams) (quantized : Array ℕ) (y : ℕ) : List Cell :=
  (List.range p.targetCols).map fun x => cellFor p quantized y x

/-- One row of plain text: the concatenated glyphs. -/
def rowText (p : AsciiParams) (quantized : Array ℕ) (y : ℕ) : String :=
  String.mk ((rowCells p quantized y).map Cell.char)

/-- One row of colorized HTML: the concatenated spans. -/
def rowHtml (p : AsciiParams) (quantized : Array ℕ) (y : ℕ) : String :=
  String.join ((rowCells p quantized y).map cellSpan)

/-- `imageUrlToAscii` (`App.jsx` lines 899-1012) together with its effect
trace. The image is drawn and read back (`Effect.sample`) before the ramp
is inspected; an empty ramp then short-circuits to the empty result; the
error-diffusion stage (`Effect.dither`) runs only when the ramp has at
least two glyphs. `html` is the newline-joined spans only when `colorize`
is set, else the empty string. -/
def imageUrlToAscii (p : AsciiParams) : ConversionResult × List Effect :=
  let rows := computeRows p.imgW p.imgH p.targetCols
  if p.ramp.length = 0 then (⟨"", "", []⟩, [Effect.sample])
  else
    let st := pipelineState p
    let lines := (List.range rows).map fun y => rowText p st.quantized y
    let htmlLines := (List.range rows).map fun y => rowHtml p st.quantized y
    let cells := (List.range rows).map fun y => rowCells p st.quantized y
    (⟨String.intercalate "\n" lines,
      if p.colorize then String.intercalate "\n" htmlLines else "",
      cells⟩,
     if p.ramp.length ≤ 1 then [Effect.sample] else [Effect.sample, Effect.dither])

/-- C4 counterexample: with an empty ramp, `imageUrlToAscii` does return
the empty result, but the sampling effect (image draw + pixel readback)
has already occurred before the ramp check, contradicting "without
performing sampling". -/
theorem claim_C4_cex :
    (imageUrlToAscii ⟨2, 2, 2, [], [], false, id, false, fun _ => 0⟩).1 =
      ⟨"", "", []⟩ ∧
    Effect.sample ∈
      (imageUrlToAscii ⟨2, 2, 2, [], [], false, id, false, fun _ => 0⟩).2 := by
  constructor
  · rfl
  · show Effect.sample ∈ [Effect.sample]
    exact List.mem_singleton.mpr rfl

/-- C4 (amended): whenever `convert` is called with an empty ramp it
returns `{ text: "", html: "", cells: [] }` without dithering, but only
after the image has already been drawn and read back: the effect trace is
exactly `[sample]`. -/
theorem claim_C4 (p : AsciiParams) (h : p.ramp = []) :
    (imageUrlToAscii p).1 = ⟨"", "", []⟩ ∧
    (imageUrlToAscii p).2 = [Effect.sample] ∧
    Effect.dither ∉ (imageUrlToAscii p).2 := by
  have hlen : p.ramp.length = 0 := by rw [h]; rfl
  refine ⟨?_, ?_, ?_⟩ <;> simp [imageUrlToAscii, hlen]

/-- Witness for C4 at a concrete empty-ramp input. -/
theorem claim_C4_witness :
    ((⟨2, 2, 2, [], [], false, id, false, fun _ => 0⟩ : AsciiParams).ramp = []) ∧
    (imageUrlToAscii ⟨2, 2, 2, [], [], false, id, false, fun _ => 0⟩).2 =
      [Effect.sample] := by
  have h : (⟨2, 2, 2, [], [], false, id, false, fun _ => 0⟩ : AsciiParams).ramp = [] := rfl
  exact ⟨h, (claim_C4 ⟨2, 2, 2, [], [], false, id, false, fun _ => 0⟩ h).2.1⟩

/-- C6: for positive image dimensions and a positive column target, the
output grid has `max(1, round((imgH/imgW) * (targetCols/2)))` rows, and in
particular 200x100 at 120 columns gives 30 rows. -/
theorem claim_C6 (p : AsciiParams) (hW : 0 < p.imgW) (hH : 0 < p.imgH)
    (hC : 0 < p.targetCols) (hramp : p.ramp ≠ []) :
    (imageUrlToAscii p).1.cells.length = computeRows p.imgW p.imgH p.targetCols ∧
    computeRows p.imgW p.imgH p.targetCols =
      (max 1 (jsRound ((p.imgH : ℚ) / (p.imgW : ℚ) *
        ((p.targetCols : ℚ) / 2)))).toNat ∧
    computeRows 200 100 120 = 30 := by
  refine ⟨?_, rfl, ?_⟩
  · have hlen : ¬ p.ramp.length = 0 := by
      simpa [List.length_eq_zero] using hramp
    simp only [imageUrlToAscii, hlen, if_false]
    simp
  · show (max 1 (jsRound (((100 : ℕ) : ℚ) / ((200 : ℕ) : ℚ) *
      (((120 : ℕ) : ℚ) / CHAR_ASPECT)))).toNat = 30
    have h1 : ((100 : ℕ) : ℚ) / ((200 : ℕ) : ℚ) *
        (((120 : ℕ) : ℚ) / CHAR_ASPECT) + 1/2 = ((61 : ℤ) : ℚ) / ((2 : ℕ) : ℚ) := by
      norm_num [CHAR_ASPECT]
    rw [jsRound, h1, Rat.floor_intCast_div_natCast]
    rfl

/-- Witness for C6 at a concrete input: a 1x1 image at one column with a
single-glyph ramp. -/
theorem claim_C6_witness :
    (0 < (1 : ℕ)) ∧ ((['x'] : List Char) ≠ []) ∧
    (imageUrlToAscii ⟨1, 1, 1, ['x'], [0], false, id, false, fun _ => 0⟩).1.cells.length =
      computeRows 1 1 1 := by
  refine ⟨by decide, by simp, ?_⟩
  exact (claim_C6 ⟨1, 1, 1, ['x'], [0], false, id, false, fun _ => 0⟩
    (by decide) (by decide) (by decide) (by simp)).1

/-- C8: every cell of the conversion result records the original sampled
RGB of its grid pixel, re-read from the sampled data independently of
dithering, while the glyph is the ramp character selected by the quantized
index. -/
theorem claim_C8 (p : AsciiParams) (y x : ℕ)
    (hy : y < computeRows p.imgW p.imgH p.targetCols) (hx : x < p.targetCols)
    (hramp : p.ramp ≠ []) :
    (((imageUrlToAscii p).1.cells.getD y []).getD x ⟨' ', 0, 0, 0⟩).r =
      p.data ((y * p.targetCols + x) * 4) ∧
    (((imageUrlToAscii p).1.cells.getD y []).getD x ⟨' ', 0, 0, 0⟩).g =
      p.data ((y * p.targetCols + x) * 4 + 1) ∧
    (((imageUrlToAscii p).1.cells.getD y []).getD x ⟨' ', 0, 0, 0⟩).b =
      p.data ((y * p.targetCols + x) * 4 + 2) ∧
    (((imageUrlToAscii p).1.cells.getD y []).getD x ⟨' ', 0, 0, 0⟩).char =
      p.ramp.getD
        (if 1 < p.ramp.length
         then (pipelineState p).quantized.getD (y * p.targetCols + x) 0
         else 0) ' ' := by
  have hlen : ¬ p.ramp.length = 0 := by
    simpa [List.length_eq_zero] using hramp
  have hcells : (imageUrlToAscii p).1.cells =
      (List.range (computeRows p.imgW p.imgH p.targetCols)).map
        fun y => rowCells p (pipelineState p).quantized y := by
    simp only [imageUrlToAscii, hlen, if_false]
  have h1 : ((List.range (computeRows p.imgW p.imgH p.targetCols)).map
      (fun y => rowCells p (pipelineState p).quantized y)).getD y [] =
      rowCells p (pipelineState p).quantized y := by
    rw [List.getD_eq_getElem _ _ (by simpa using hy), List.getElem_map,
      List.getElem_range]
  have h2 : (rowCells p (pipelineState p).quantized y).getD x ⟨' ', 0, 0, 0⟩ =
      cellFor p (pipelineState p).quantized y x := by
    rw [rowCells, List.getD_eq_getElem _ _ (by simpa using hx),
      List.getElem_map, List.getElem_range]
  rw [hcells, h1, h2]
  exact ⟨rfl, rfl, rfl, rfl⟩

/-- Witness for C8 at a concrete input: a 1x1 image whose byte stream is
the identity, with a single-glyph ramp. -/
theorem claim_C8_witness :
    (0 < computeRows 1 1 1) ∧ ((0 : ℕ) < 1) ∧ ((['x'] : List Char) ≠ []) ∧
    (((imageUrlToAscii ⟨1, 1, 1, ['x'], [0], false, id, false,
        fun n => n⟩).1.cells.getD 0 []).getD 0 ⟨' ', 0, 0, 0⟩).g =
      (fun n => n) ((0 * 1 + 0) * 4 + 1) := by
  have hrows : 0 < computeRows 1 1 1 := by
    rw [computeRows]
    have h1 : (1 : ℤ) ≤ max 1 (jsRound ((1 : ℚ) / (1 : ℚ) * ((1 : ℚ) / CHAR_ASPECT))) :=
      le_max_left _ _
    omega
  exact ⟨hrows, by decide, by simp,
    (claim_C8 ⟨1, 1, 1, ['x'], [0], false, id, false, fun n => n⟩ 0 0 hrows
      (by decide) (by simp)).2.1⟩

/-- C9: under colorization the per-cell foreground is black exactly when
the perceptual luminance `(0.2126r + 0.7152g + 0.0722b)/255` of the source
pixel exceeds 0.6, and white otherwise; a white pixel gets black text and a
black pixel gets white text. -/
theorem claim_C9 (r g b : ℕ) :
    (textColorFor r g b = "rgb(0,0,0)" ↔
      6/10 < (2126/10000 * (r : ℚ) + 7152/10000 * (g : ℚ) +
        722/10000 * (b : ℚ)) / 255) ∧
    (textColorFor r g b = "rgb(255,255,255)" ↔
      ¬ 6/10 < (2126/10000 * (r : ℚ) + 7152/10000 * (g : ℚ) +
        722/10000 * (b : ℚ)) / 255) ∧
    textColorFor 255 255 255 = "rgb(0,0,0)" ∧
    textColorFor 0 0 0 = "rgb(255,255,255)" := by
  have hne : ("rgb(0,0,0)" : String) ≠ "rgb(255,255,255)" := by decide
  refine ⟨?_, ?_, ?_, ?_⟩
  · rw [textColorFor, lumOf]
    constructor
    · intro h
      by_contra hcon
      rw [if_neg hcon] at h
      exact hne h.symm
    · intro h
      rw [if_pos h]
  · rw [textColorFor, lumOf]
    constructor
    · intro h
      by_contra hcon
      rw [if_pos hcon] at h
      exact hne h
    · intro h
      rw [if_neg h]
  · rw [textColorFor, if_pos]
    rw [lumOf]
    norm_num
  · rw [textColorFor, if_neg]
    rw [lumOf]
    norm_num

/-! ## Conversion-request cancellation
(`App.jsx` lines 103-104 and 324-356)

`convertToAscii` allocates `jobId = conversionIdRef.current + 1`, stores it
in both refs, and on completion applies the result only if
`activeConversionRef.current` still equals its own `jobId`, resetting the
ref to 0 in the `finally` block. Interleavings of requests and completions
are modelled as a transition system over those two counters plus a record
of whose result is displayed. -/

/-- The request-tracking state: `conversionIdRef.current`,
`activeConversionRef.current`, and the job id whose result is currently
displayed (if any). -/
structure ConvState where
  convId : ℕ
  activeId : ℕ
  displayed : Option ℕ
deriving Repr, DecidableEq

/-- Events: a new conversion request starts, or the asynchronous work of
job `jobId` completes and its handler runs. -/
inductive ConvEvent where
  | start
  | complete (jobId : ℕ)
deriving Repr, DecidableEq

/-- The transitions of `convertToAscii` (lines 326-328 and 340-355): a
start bumps the monotone counter and makes the new job active; a
completion applies its result only while its id is still the active one
and then clears the active id; stale completions change nothing. -/
def convStep (s : ConvState) (e : ConvEvent) : ConvState :=
  match e with
  | .start => ⟨s.convId + 1, s.convId + 1, s.displayed⟩
  | .complete j => if s.activeId = j then ⟨s.convId, 0, some j⟩ else s

/-- All states reached along a list of events, including the start state. -/
def convRun (s : ConvState) (es : List ConvEvent) : List ConvState :=
  es.scanl convStep s

/-- Once job `a` is no longer active and not displayed, and the counter has
moved past it, no sequence of events can ever display `a`'s result. -/
theorem convRun_not_displayed (a : ℕ) (ha : 0 < a) :
    ∀ (es : List ConvEvent) (s : ConvState),
      a ≤ s.convId → s.activeId ≠ a → s.displayed ≠ some a →
      ∀ t ∈ convRun s es, t.displayed ≠ some a := by
  intro es
  induction es with
  | nil =>
    intro s _ _ h3 t ht
    rw [convRun, List.scanl_nil, List.mem_singleton] at ht
    subst ht
    exact h3
  | cons e es ih =>
    intro s h1 h2 h3 t ht
    rw [convRun, List.scanl_cons] at ht
    rcases List.mem_cons.mp ht with rfl | ht'
    · exact h3
    · refine ih (convStep s e) ?_ ?_ ?_ t ht'
      · cases e with
        | start => show a ≤ s.convId + 1; omega
        | complete j =>
          simp only [convStep]
          split_ifs <;> exact h1
      · cases e with
        | start => show s.convId + 1 ≠ a; omega
        | complete j =>
          simp only [convStep]
          split_ifs with hj
          · show (0 : ℕ) ≠ a
            omega
          · exact h2
      · cases e with
        | start => exact h3
        | complete j =>
          simp only [convStep]
          split_ifs with hj
          · show some j ≠ some a
            intro hcon
            apply h2
            rw [hj]
            exact Option.some.inj hcon
          · exact h3

/-- C7: request identifiers increase monotonically; a completion applies
its result only while its identifier is still the active (most recent)
one, and a stale completion is a no-op; consequently, after request A
(id `convId+1`) is superseded by request B (id `convId+2`), no
interleaving of later completions ever displays A's result, even if A
completes after B. -/
theorem claim_C7 (s : ConvState) (post : List ConvEvent)
    (hfresh : s.displayed ≠ some (s.convId + 1)) :
    (convStep s .start).convId = s.convId + 1 ∧
    (convStep (convStep s .start) .start).convId = s.convId + 2 ∧
    (∀ (t : ConvState) (j : ℕ), t.activeId ≠ j → convStep t (.complete j) = t) ∧
    (∀ t ∈ convRun (convStep (convStep s .start) .start) post,
      t.displayed ≠ some (s.convId + 1)) := by
  refine ⟨rfl, rfl, ?_, ?_⟩
  · intro t j hj
    simp [convStep, hj]
  · refine convRun_not_displayed (s.convId + 1) (by omega) post _ ?_ ?_ ?_
    · show s.convId + 1 ≤ s.convId + 2
      omega
    · show s.convId + 2 ≠ s.convId + 1
      omega
    · exact hfresh

/-- Witness for C7 at a concrete input: from the initial state, request A
(id 1) then B (id 2), then A completes late and B completes; A's result is
never displayed. -/
theorem claim_C7_witness :
    ((⟨0, 0, none⟩ : ConvState).displayed ≠ some 1) ∧
    (∀ t ∈ convRun (convStep (convStep ⟨0, 0, none⟩ .start) .start)
        [.complete 1, .complete 2], t.displayed ≠ some 1) := by
  have h : (⟨0, 0, none⟩ : ConvState).displayed ≠ some 1 := by simp
  exact ⟨h, (claim_C7 ⟨0, 0, none⟩ [.complete 1, .complete 2] h).2.2.2⟩

end AsciiConverter
